import Mathlib

/-!
Shallow embedding of the easy_collections Rust crate.

The crate has two components: `EasySet<K>` (src/set.rs), a wrapper around
`HashSet<K>` adding Python-style set algebra and a subset-based ordering, and
`EasyMap<K, V>` (src/map.rs), a wrapper around `HashMap<K, V>` adding a
fallback default value for absent keys.

The underlying `HashSet<K>` is modelled as a `Finset K`; the underlying
`HashMap<K, V>` is modelled as an association list (insertion keeps at most
one entry per key, and the derived `HashMap` equality is extensional in the
entries, which the embedded equality reflects). Mutating Rust methods are
embedded as functions returning the updated value alongside their result.
-/

/-- Embedding of `EasySet<K>` from src/set.rs: a wrapper around `HashSet<K>`,
with the wrapped hash set modelled as a `Finset`. -/
structure EasySet (K : Type) [DecidableEq K] where
  inner : Finset K

namespace EasySet

variable {K : Type} [DecidableEq K]

/-- Embedding of `EasySet::new`: the empty set. -/
def new : EasySet K := ⟨∅⟩

/-- Embedding of `EasySet::contains`, which delegates to `HashSet::contains`. -/
def contains (s : EasySet K) (k : K) : Bool := decide (k ∈ s.inner)

/-- Embedding of `EasySet::insert`, which delegates to `HashSet::insert`:
returns `true` when the key was newly added, together with the updated set. -/
def insert (s : EasySet K) (k : K) : Bool × EasySet K :=
  (decide (k ∉ s.inner), ⟨Insert.insert k s.inner⟩)

/-- Embedding of `EasySet::remove`, which delegates to `HashSet::remove`:
returns `true` when the key was present, together with the updated set. -/
def remove (s : EasySet K) (k : K) : Bool × EasySet K :=
  (decide (k ∈ s.inner), ⟨s.inner.erase k⟩)

/-- Embedding of `EasySet::toggle` (src/set.rs lines 107-116): records the
prior containment state, removes the key if present, inserts it otherwise,
and returns the recorded state. -/
def toggle (s : EasySet K) (k : K) : Bool × EasySet K :=
  let contained_key := s.contains k
  if s.contains k = true then (contained_key, (s.remove k).2)
  else (contained_key, (s.insert k).2)

/-- Embedding of the derived `PartialEq` for `EasySet` (src/set.rs line 58):
compares the wrapped sets. -/
def beq (a b : EasySet K) : Bool := decide (a.inner = b.inner)

/-- Embedding of `Ord::cmp` for `EasySet` (src/set.rs lines 170-180):
`Less` when `self.inner.is_subset(&other.inner)` — a non-strict subset test —
otherwise `Greater` when `self.inner.is_superset(&other.inner)`, otherwise
`Equal`. -/
def cmp (a b : EasySet K) : Ordering :=
  if a.inner ⊆ b.inner then Ordering.lt
  else if b.inner ⊆ a.inner then Ordering.gt
  else Ordering.eq

/-- Embedding of `PartialOrd::partial_cmp` for `EasySet` (src/set.rs lines
164-168): always `Some(self.cmp(other))`. -/
def partial_cmp (a b : EasySet K) : Option Ordering := some (a.cmp b)

/-- The Rust operator `<` as `PartialOrd` derives it: true exactly when
`partial_cmp` returns `Some(Less)`. -/
def ltb (a b : EasySet K) : Bool :=
  match a.partial_cmp b with
  | some Ordering.lt => true
  | _ => false

/-- The Rust operator `>` as `PartialOrd` derives it: true exactly when
`partial_cmp` returns `Some(Greater)`. -/
def gtb (a b : EasySet K) : Bool :=
  match a.partial_cmp b with
  | some Ordering.gt => true
  | _ => false

/-- Embedding of `BitAnd` (`&`) from the `impl_bit_op!` macro (src/set.rs
lines 214-242): `HashSet::intersection`, the keys present in both operands. -/
def bitand (a b : EasySet K) : EasySet K := ⟨a.inner ∩ b.inner⟩

/-- Embedding of `BitOr` (`|`): `HashSet::union`, the keys present in either
operand. -/
def bitor (a b : EasySet K) : EasySet K := ⟨a.inner ∪ b.inner⟩

/-- Embedding of `BitXor` (`^`): `HashSet::symmetric_difference`, the keys
present in either operand but not in both. -/
def bitxor (a b : EasySet K) : EasySet K :=
  ⟨(a.inner ∪ b.inner) \ (a.inner ∩ b.inner)⟩

/-- Embedding of `Sub` (`-`): `HashSet::difference`, the keys present in the
left operand but not the right. -/
def sub (a b : EasySet K) : EasySet K := ⟨a.inner \ b.inner⟩

/-- Embedding of `BitAndAssign` (`&=`) generated by `impl_bit_op!`: the left
operand is replaced by `self.inner.intersection(&rhs.into()).cloned().collect()`. -/
def bitand_assign (a b : EasySet K) : EasySet K := ⟨a.inner ∩ b.inner⟩

/-- Embedding of `BitOrAssign` (`|=`) generated by `impl_bit_op!`. -/
def bitor_assign (a b : EasySet K) : EasySet K := ⟨a.inner ∪ b.inner⟩

/-- Embedding of `BitXorAssign` (`^=`) generated by `impl_bit_op!`. -/
def bitxor_assign (a b : EasySet K) : EasySet K :=
  ⟨(a.inner ∪ b.inner) \ (a.inner ∩ b.inner)⟩

/-- Embedding of `SubAssign` (`-=`) generated by `impl_bit_op!`. -/
def sub_assign (a b : EasySet K) : EasySet K := ⟨a.inner \ b.inner⟩

end EasySet

/-- Embedding of `EasyMap<K, V>` from src/map.rs: a `HashMap<K, V>` (modelled
as an association list holding at most one entry per key) together with the
fallback value returned for absent keys. -/
structure EasyMap (K V : Type) where
  inner : List (K × V)
  default : V

namespace EasyMap

variable {K V : Type} [DecidableEq K] [DecidableEq V]

/-- Embedding of `EasyMap::new_with_default` (src/map.rs): an empty mapping
with the given fallback value. -/
def new_with_default (d : V) : EasyMap K V := ⟨[], d⟩

/-- Embedding of `HashMap::get` on the wrapped map: the value stored at the
key, if any. -/
def get (m : EasyMap K V) (k : K) : Option V :=
  (m.inner.find? (fun p => decide (p.1 = k))).map Prod.snd

/-- Embedding of `EasyMap::insert`, which delegates to `HashMap::insert`:
stores the value under the key, overwriting any previous entry, and returns
the previous value alongside the updated map. -/
def insert (m : EasyMap K V) (k : K) (v : V) : Option V × EasyMap K V :=
  (m.get k, ⟨(m.inner.filter (fun p => !decide (p.1 = k))) ++ [(k, v)], m.default⟩)

/-- Embedding of `EasyMap::remove`, which delegates to `HashMap::remove`:
drops the entry at the key, returning its value alongside the updated map. -/
def remove (m : EasyMap K V) (k : K) : Option V × EasyMap K V :=
  (m.get k, ⟨m.inner.filter (fun p => !decide (p.1 = k)), m.default⟩)

/-- Embedding of `HashMap::contains_key`, reachable through the `Deref`
implementation: whether the key is stored in the wrapped map. -/
def contains (m : EasyMap K V) (k : K) : Bool := (m.get k).isSome

/-- Embedding of `Index::index` for `EasyMap` (src/map.rs lines 161-166):
`self.inner.get(&key).unwrap_or(&self.default)`. -/
def index (m : EasyMap K V) (k : K) : V := (m.get k).getD m.default

/-- Embedding of `IndexMut::index_mut` for `EasyMap` (src/map.rs lines
168-172): `self.inner.entry(key).or_insert(self.default.clone())`; yields
the value now stored at the key together with the possibly extended map. -/
def index_mut (m : EasyMap K V) (k : K) : V × EasyMap K V :=
  match m.get k with
  | some v => (v, m)
  | none => (m.default, (m.insert k m.default).2)

/-- Embedding of the indexed assignment `map[key] = value`: Rust evaluates
`index_mut` and writes the value through the returned reference, replacing
the value stored at the key. -/
def writeIndex (m : EasyMap K V) (k : K) (v : V) : EasyMap K V :=
  (((m.index_mut k).2).insert k v).2

/-- Embedding of the derived `PartialEq` for `EasyMap` (src/map.rs line 38):
the wrapped maps hold the same entries (`HashMap` equality is extensional in
the entries) and the fallback values are equal. -/
def beq (m1 m2 : EasyMap K V) : Bool :=
  (m1.inner.all fun p => decide (m2.get p.1 = some p.2)) &&
  (m2.inner.all fun p => decide (m1.get p.1 = some p.2)) &&
  decide (m1.default = m2.default)

/-- Embedding of `FromIterator` for `EasyMap` (src/map.rs lines 134-143):
start from `map!(V::default())` and insert the pairs in sequence order. -/
def from_iter [Inhabited V] (l : List (K × V)) : EasyMap K V :=
  l.foldl (fun m p => (m.insert p.1 p.2).2)
    (new_with_default (Inhabited.default : V))

end EasyMap

/-- Value attached to the last pair carrying the given key in a sequence of
key-value pairs, if any pair carries it. -/
def lastValue {K V : Type} [DecidableEq K] : List (K × V) → K → Option V
  | [], _ => none
  | p :: l, k =>
    match lastValue l k with
    | some v => some v
    | none => if p.1 = k then some p.2 else none

namespace EasySet

variable {K : Type} [DecidableEq K]

/-- The comparison returns `Less` exactly on a (non-strict) subset. -/
theorem cmp_eq_lt_iff (a b : EasySet K) :
    a.cmp b = Ordering.lt ↔ a.inner ⊆ b.inner := by
  unfold EasySet.cmp
  split_ifs with h1 h2 <;> simp_all

/-- The comparison returns `Greater` exactly on a strict superset. -/
theorem cmp_eq_gt_iff (a b : EasySet K) :
    a.cmp b = Ordering.gt ↔ b.inner ⊂ a.inner := by
  unfold EasySet.cmp
  split_ifs with h1 h2 <;>
    simp_all [Finset.ssubset_def]

/-- The Rust operator `<` tests that `cmp` yields `Less`. -/
theorem ltb_iff_cmp (a b : EasySet K) :
    a.ltb b = true ↔ a.cmp b = Ordering.lt := by
  unfold EasySet.ltb EasySet.partial_cmp
  cases h : a.cmp b <;> simp

/-- The Rust operator `>` tests that `cmp` yields `Greater`. -/
theorem gtb_iff_cmp (a b : EasySet K) :
    a.gtb b = true ↔ a.cmp b = Ordering.gt := by
  unfold EasySet.gtb EasySet.partial_cmp
  cases h : a.cmp b <;> simp

end EasySet

/-- C1 counterexample: at `A = B = {1}` the code compares `A < B` as true
(`is_subset` is non-strict, so `cmp` returns `Less`), although `A` is not a
strict subset of `B`; the claimed equivalence fails at this input. -/
theorem C1_strict_subset_counterexample :
    ¬ ((EasySet.ltb (⟨{1}⟩ : EasySet ℕ) ⟨{1}⟩ = true) ↔
       (⟨{1}⟩ : EasySet ℕ).inner ⊂ (⟨{1}⟩ : EasySet ℕ).inner) := by
  decide

/-- C1 (amended): for all sets `A` and `B`, `A < B` iff `A` is a subset of
`B` (not necessarily strict), `A > B` iff `A` is a strict superset of `B`,
and `A == B` iff the two sets contain identical elements. -/
theorem C1_ordering_amended {K : Type} [DecidableEq K] (a b : EasySet K) :
    (a.ltb b = true ↔ a.inner ⊆ b.inner) ∧
    (a.gtb b = true ↔ b.inner ⊂ a.inner) ∧
    (a.beq b = true ↔ a.inner = b.inner) := by
  refine ⟨?_, ?_, ?_⟩
  · rw [EasySet.ltb_iff_cmp, EasySet.cmp_eq_lt_iff]
  · rw [EasySet.gtb_iff_cmp, EasySet.cmp_eq_gt_iff]
  · simp [EasySet.beq]

/-- C2: when `A` is neither a subset nor a superset of `B`, `cmp` returns
`Equal` while the equality comparison returns `false` (the element sets
necessarily differ). -/
theorem C2_incomparable_cmp_eq {K : Type} [DecidableEq K] (a b : EasySet K)
    (h1 : ¬ a.inner ⊆ b.inner) (h2 : ¬ b.inner ⊆ a.inner) :
    a.cmp b = Ordering.eq ∧ a.beq b = false := by
  constructor
  · unfold EasySet.cmp
    rw [if_neg h1, if_neg h2]
  · have hne : a.inner ≠ b.inner := by
      intro h
      exact h1 (by rw [h])
    simp [EasySet.beq, hne]

theorem C2_incomparable_cmp_eq_witness :
    EasySet.cmp (⟨{1}⟩ : EasySet ℕ) ⟨{2}⟩ = Ordering.eq ∧
    EasySet.beq (⟨{1}⟩ : EasySet ℕ) ⟨{2}⟩ = false :=
  C2_incomparable_cmp_eq ⟨{1}⟩ ⟨{2}⟩ (by decide) (by decide)

/-- C10: `partial_cmp` always returns `Some` ordering; no pair of sets is
ever reported as incomparable. -/
theorem C10_partial_cmp_total {K : Type} [DecidableEq K] (a b : EasySet K) :
    (a.partial_cmp b).isSome = true := rfl

/-- C5: `toggle` returns the membership of the key before the toggle, flips
that membership, and applying it twice restores the original membership of
the key. -/
theorem C5_toggle_flips_membership {K : Type} [DecidableEq K]
    (s : EasySet K) (k : K) :
    (s.toggle k).1 = s.contains k ∧
    ((s.toggle k).2).contains k = !s.contains k ∧
    ((((s.toggle k).2).toggle k).2).contains k = s.contains k := by
  by_cases h : k ∈ s.inner <;>
    simp [EasySet.toggle, EasySet.contains, EasySet.remove, EasySet.insert, h]

/-- C6: the symmetric difference equals the union of the two one-sided
differences: `(A ^ B) == (A - B) | (B - A)`. -/
theorem C6_symmdiff_eq_union_of_diffs {K : Type} [DecidableEq K]
    (a b : EasySet K) :
    (a.bitxor b).beq ((a.sub b).bitor (b.sub a)) = true := by
  simp only [EasySet.beq, EasySet.bitxor, EasySet.bitor, EasySet.sub,
    decide_eq_true_eq]
  ext x
  simp only [Finset.mem_sdiff, Finset.mem_union, Finset.mem_inter, not_and]
  tauto

/-- C7: each in-place assignment operator leaves the left operand equal to
the result of the corresponding non-mutating operator on the original
operands. -/
theorem C7_assign_ops_match {K : Type} [DecidableEq K] (a b : EasySet K) :
    a.bitand_assign b = a.bitand b ∧
    a.bitor_assign b = a.bitor b ∧
    a.bitxor_assign b = a.bitxor b ∧
    a.sub_assign b = a.sub b :=
  ⟨rfl, rfl, rfl, rfl⟩

namespace EasyMap

variable {K V : Type} [DecidableEq K]

/-- Reading back an inserted key yields the inserted value; other keys are
unaffected. -/
theorem get_insert (m : EasyMap K V) (k : K) (v : V) (q : K) :
    ((m.insert k v).2).get q = if q = k then some v else m.get q := by
  unfold EasyMap.insert EasyMap.get
  simp only [List.find?_append]
  by_cases h : q = k
  · subst h
    have hnone : (m.inner.filter (fun p => !decide (p.1 = q))).find?
        (fun p => decide (p.1 = q)) = none := by
      rw [List.find?_eq_none]
      intro x hx
      have hx2 := (List.mem_filter.mp hx).2
      simpa using hx2
    rw [hnone, List.find?_cons_of_pos _ (by simp), if_pos rfl]
    rfl
  · have hkq : ¬ (k, v).1 = q := fun hk => h hk.symm
    rw [List.find?_cons_of_neg _ (by simpa using hkq), List.find?_nil,
      Option.or_none, List.find?_filter, if_neg h]
    have hpred : ∀ a : K × V,
        decide ((!decide (a.1 = k)) = true ∧ decide (a.1 = q) = true) =
          decide (a.1 = q) := by
      intro a
      by_cases ha : a.1 = q
      · simp [ha, h]
      · simp [ha]
    simp only [hpred]

/-- Inserting never changes the fallback value. -/
theorem insert_default (m : EasyMap K V) (k : K) (v : V) :
    ((m.insert k v).2).default = m.default := rfl

/-- Folding insertions over a pair sequence stores, for each key, the value
of the last pair carrying it, and otherwise leaves the initial map's entry. -/
theorem get_foldl_insert (l : List (K × V)) (m : EasyMap K V) (k : K) :
    (l.foldl (fun m p => (m.insert p.1 p.2).2) m).get k =
      (match lastValue l k with
       | some v => some v
       | none => m.get k) := by
  induction l generalizing m with
  | nil => rfl
  | cons p l ih =>
    simp only [List.foldl_cons, lastValue]
    rw [ih]
    cases hl : lastValue l k with
    | some v => rfl
    | none =>
      rw [get_insert]
      by_cases hk : k = p.1
      · subst hk
        simp
      · rw [if_neg hk, if_neg (fun hp : p.1 = k => hk hp.symm)]

/-- Folding insertions never changes the fallback value. -/
theorem foldl_insert_default (l : List (K × V)) (m : EasyMap K V) :
    (l.foldl (fun m p => (m.insert p.1 p.2).2) m).default = m.default := by
  induction l generalizing m with
  | nil => rfl
  | cons p l ih => simpa using ih ((m.insert p.1 p.2).2)

end EasyMap

/-- C3: the indexed read returns the stored value when the key is present
and the fallback default when it is absent (it is a pure function of the
map, so it never fails and never changes the contents), and after the
indexed write `M[k] = v` the read of `k` returns `v`. -/
theorem C3_index_read_write {K V : Type} [DecidableEq K]
    (m : EasyMap K V) (k : K) (v w : V) :
    (m.get k = some w → m.index k = w) ∧
    (m.get k = none → m.index k = m.default) ∧
    (m.writeIndex k v).index k = v := by
  refine ⟨fun h => ?_, fun h => ?_, ?_⟩
  · simp [EasyMap.index, h]
  · simp [EasyMap.index, h]
  · simp [EasyMap.writeIndex, EasyMap.index, EasyMap.get_insert]

theorem C3_index_read_write_witness :
    EasyMap.index (⟨[(1, 10)], 7⟩ : EasyMap ℕ ℕ) 1 = 10 ∧
    EasyMap.index (⟨[(1, 10)], 7⟩ : EasyMap ℕ ℕ) 2 = 7 ∧
    (EasyMap.writeIndex (⟨[(1, 10)], 7⟩ : EasyMap ℕ ℕ) 2 5).index 2 = 5 :=
  ⟨(C3_index_read_write ⟨[(1, 10)], 7⟩ 1 5 10).1 (by decide),
   (C3_index_read_write ⟨[(1, 10)], 7⟩ 2 5 7).2.1 (by decide),
   (C3_index_read_write ⟨[(1, 10)], 7⟩ 2 5 7).2.2⟩

/-- C4: requesting a mutable indexed reference to an absent key inserts a
clone of the default there and hands back that default, so the key
subsequently reports as present with the default value; a present key is
returned unchanged together with an unchanged map. -/
theorem C4_index_mut_inserts_default {K V : Type} [DecidableEq K]
    (m : EasyMap K V) (k : K) :
    (m.get k = none →
      (m.index_mut k).1 = m.default ∧
      ((m.index_mut k).2).contains k = true ∧
      ((m.index_mut k).2).get k = some m.default) ∧
    (∀ v, m.get k = some v → m.index_mut k = (v, m)) := by
  constructor
  · intro h
    refine ⟨?_, ?_, ?_⟩ <;>
      simp [EasyMap.index_mut, h, EasyMap.contains, EasyMap.get_insert]
  · intro v h
    simp [EasyMap.index_mut, h]

theorem C4_index_mut_inserts_default_witness :
    ((EasyMap.index_mut (⟨[], 7⟩ : EasyMap ℕ ℕ) 3).1 = 7 ∧
     ((EasyMap.index_mut (⟨[], 7⟩ : EasyMap ℕ ℕ) 3).2).contains 3 = true ∧
     ((EasyMap.index_mut (⟨[], 7⟩ : EasyMap ℕ ℕ) 3).2).get 3 = some 7) ∧
    EasyMap.index_mut (⟨[(1, 2)], 7⟩ : EasyMap ℕ ℕ) 1 = (2, ⟨[(1, 2)], 7⟩) :=
  ⟨(C4_index_mut_inserts_default ⟨[], 7⟩ 3).1 (by decide),
   (C4_index_mut_inserts_default ⟨[(1, 2)], 7⟩ 1).2 2 (by decide)⟩

/-- C8: converting a sequence of key-value pairs inserts them in order, so
each key ends up mapped to the value of its last pair in the sequence, and
the resulting fallback default is the type-default value of `V`. -/
theorem C8_from_iter_last_wins {K V : Type} [DecidableEq K] [Inhabited V]
    (l : List (K × V)) (k : K) :
    (EasyMap.from_iter l : EasyMap K V).default = (Inhabited.default : V) ∧
    (EasyMap.from_iter l : EasyMap K V).get k = lastValue l k := by
  constructor
  · exact EasyMap.foldl_insert_default l _
  · unfold EasyMap.from_iter
    rw [EasyMap.get_foldl_insert]
    cases hl : lastValue l k with
    | some v => rfl
    | none => rfl

/-- C9: the derived map equality also compares the fallback default, so two
maps holding identical entries but built with different defaults compare
unequal. -/
theorem C9_map_eq_compares_default {K V : Type} [DecidableEq K] [DecidableEq V]
    (m1 m2 : EasyMap K V) (_hget : ∀ k, m1.get k = m2.get k)
    (hdef : m1.default ≠ m2.default) :
    m1.beq m2 = false := by
  simp [EasyMap.beq, hdef]

theorem C9_map_eq_compares_default_witness :
    EasyMap.beq (⟨[], 0⟩ : EasyMap ℕ ℕ) (⟨[], 1⟩ : EasyMap ℕ ℕ) = false :=
  C9_map_eq_compares_default ⟨[], 0⟩ ⟨[], 1⟩ (fun _ => rfl) (by decide)
